import Mathlib

/-!
Verification development for the takopi chat-to-agent bridge.

Text is modelled as `List Char`.  The bridge implementation itself
(`exec_bridge.py`, `telegram.py`, `logging.py`) is not part of the source
tree we were given; only its test-suite and `transcribe.py` are.  The
definitions below marked "Modelled from the spec:" therefore embed the
missing functions following the specification's words (cross-checked
against the repository's own tests, which exercise the missing code).
`transcribe.py` is embedded directly from its source.
-/

/-- Hexadecimal digit as the session-id alphabet uses it (lowercase). -/
def isHexDigit (c : Char) : Bool :=
  ('0' ≤ c ∧ c ≤ '9') ∨ ('a' ≤ c ∧ c ≤ 'f')

/-- Modelled from the spec: the session identifier is a UUID-formatted
string, i.e. five hyphen-separated groups of hex digits with lengths
8-4-4-4-12.  (The repository's tests accept any UUID version, so no
version nibble is checked.) -/
def isUuidChars (l : List Char) : Bool :=
  let parts := List.splitOn '-' l
  parts.map List.length = [8, 4, 4, 4, 12] ∧ parts.all (fun p => p.all isHexDigit)

/-- Literal start of the resume-marker wire format: the text
`resume: ` followed by an opening backtick. -/
def resumeMarkerStart : List Char := "resume: `".toList

/-- Modelled from the spec: a line matches the exact resume-marker shape
when it is the literal prefix, a backtick-delimited UUID, and nothing
else; the parsed identifier is returned.  Missing from src:
`takopi.exec_bridge` resume-line parsing. -/
def parseResumeLine (line : List Char) : Option (List Char) :=
  if resumeMarkerStart.isPrefixOf line then
    let rest := line.drop resumeMarkerStart.length
    match rest.reverse with
    | '`' :: ridRev =>
      let rid := ridRev.reverse
      if isUuidChars rid then some rid else none
    | _ => none
  else none

/-- Split a text into its lines (Python `str.split("\n")` semantics:
the empty text yields one empty line). -/
def splitLines (s : List Char) : List (List Char) := List.splitOn '\n' s

/-- Modelled from the spec: scan the text for resume-marker lines and
return the identifier of the last one, or none when no line matches the
exact marker shape.  Missing from src: `takopi.exec_bridge.extract_session_id`. -/
def extract_session_id (text : List Char) : Option (List Char) :=
  (splitLines text).foldl
    (fun acc line =>
      match parseResumeLine line with
      | some sid => some sid
      | none => acc)
    none

/-- Keep the last `n` elements of a list. -/
def takeRight (n : Nat) (l : List α) : List α := l.drop (l.length - n)

/-- Split a text into everything up to and including the final newline,
and the final line (which contains no newline). -/
def splitLastLine (s : List Char) : List Char × List Char :=
  let revTail := s.reverse.takeWhile (fun c => c ≠ '\n')
  (s.take (s.length - revTail.length), revTail.reverse)

/-- A line is a resume-marker line when it parses to a session id. -/
def isResumeLine (line : List Char) : Bool := (parseResumeLine line).isSome

/-- Modelled from the spec: return the text unchanged when it fits in
`limit`; otherwise produce a result of length at most `limit` that keeps
a trailing resume-marker line intact as the final line, trimming the
preceding content from the front, and otherwise keeps the tail of the
text (so the last non-empty line stays visible).  Missing from src:
`takopi.exec_bridge.truncate_for_telegram`. -/
def truncate_for_telegram (text : List Char) (limit : Nat) : List Char :=
  if text.length ≤ limit then text
  else
    let headPart := (splitLastLine text).1
    let lastLn := (splitLastLine text).2
    if isResumeLine lastLn then
      if limit ≤ lastLn.length then takeRight limit lastLn
      else takeRight (limit - lastLn.length) headPart ++ lastLn
    else takeRight limit text

/-! Basic facts about the helpers. -/

theorem takeRight_length_le (n : Nat) (l : List α) : (takeRight n l).length ≤ n := by
  simp only [takeRight, List.length_drop]; omega

theorem takeRight_suffix (n : Nat) (l : List α) : takeRight n l <:+ l :=
  List.drop_suffix _ _

theorem takeRight_full (n : Nat) (l : List α) (h : l.length ≤ n) : takeRight n l = l := by
  simp [takeRight, Nat.sub_eq_zero_of_le h]

theorem dropWhile_head_false {p : Char → Bool} :
    ∀ {l : List Char} {c : Char} {cs : List Char}, l.dropWhile p = c :: cs → p c = false := by
  intro l
  induction l with
  | nil => intro c cs h; simp [List.dropWhile] at h
  | cons a l ih =>
    intro c cs h
    by_cases hp : p a
    · rw [List.dropWhile_cons_of_pos hp] at h; exact ih h
    · rw [List.dropWhile_cons_of_neg hp] at h
      cases h
      simpa using hp

theorem splitLastLine_decomp (s : List Char) :
    (splitLastLine s).1 = (s.reverse.dropWhile (fun c => c ≠ '\n')).reverse ∧
    (splitLastLine s).2 = (s.reverse.takeWhile (fun c => c ≠ '\n')).reverse := by
  have hsplit : s = (s.reverse.dropWhile (fun c => c ≠ '\n')).reverse ++
      (s.reverse.takeWhile (fun c => c ≠ '\n')).reverse := by
    conv_lhs => rw [← List.reverse_reverse s,
      ← List.takeWhile_append_dropWhile (p := fun c => c ≠ '\n') (l := s.reverse)]
    rw [List.reverse_append]
  refine ⟨?_, rfl⟩
  unfold splitLastLine
  simp only
  have hlen : s.length - (s.reverse.takeWhile (fun c => c ≠ '\n')).length =
      (s.reverse.dropWhile (fun c => c ≠ '\n')).reverse.length := by
    have h1 : s.length = (s.reverse.dropWhile (fun c => c ≠ '\n')).reverse.length +
        (s.reverse.takeWhile (fun c => c ≠ '\n')).reverse.length := by
      conv_lhs => rw [hsplit]
      exact List.length_append _ _
    simp only [List.length_reverse] at h1 ⊢
    omega
  rw [hlen]
  have htl := List.take_left (s.reverse.dropWhile (fun c => c ≠ '\n')).reverse
    (s.reverse.takeWhile (fun c => c ≠ '\n')).reverse
  rw [← hsplit] at htl
  exact htl

theorem splitLastLine_append (s : List Char) :
    (splitLastLine s).1 ++ (splitLastLine s).2 = s := by
  have h := splitLastLine_decomp s
  rw [h.1, h.2]
  conv_rhs => rw [← List.reverse_reverse s,
    ← List.takeWhile_append_dropWhile (p := fun c => c ≠ '\n') (l := s.reverse)]
  rw [List.reverse_append]

theorem splitLastLine_fst_last (s : List Char) :
    (splitLastLine s).1 = [] ∨ (splitLastLine s).1.getLast? = some '\n' := by
  rw [(splitLastLine_decomp s).1]
  cases hd : s.reverse.dropWhile (fun c => c ≠ '\n') with
  | nil => left; simp
  | cons c cs =>
    right
    have hc : (fun c => decide (c ≠ '\n')) c = false := dropWhile_head_false hd
    have hc' : c = '\n' := by simpa using hc
    rw [List.getLast?_reverse]
    simp [hc']

theorem splitLastLine_snd_no_newline (s : List Char) :
    ∀ c ∈ (splitLastLine s).2, c ≠ '\n' := by
  rw [(splitLastLine_decomp s).2]
  intro c hc
  rw [List.mem_reverse] at hc
  have := List.mem_takeWhile_imp hc
  simpa using this

/-- Every output of `truncate_for_telegram` that went through truncation
fits in the limit; the untruncated branch returns the input itself. -/
theorem truncate_for_telegram_length (text : List Char) (limit : Nat) :
    (truncate_for_telegram text limit).length ≤ limit := by
  unfold truncate_for_telegram
  by_cases h : text.length ≤ limit
  · simp [h]
  · simp only [h, if_false]
    by_cases hres : isResumeLine (splitLastLine text).2
    · by_cases hlim : limit ≤ (splitLastLine text).2.length
      · simpa [hres, hlim] using takeRight_length_le limit (splitLastLine text).2
      · simp only [hres, hlim, if_true, if_false]
        rw [List.length_append]
        have h1 := takeRight_length_le (limit - (splitLastLine text).2.length)
          (splitLastLine text).1
        omega
    · simpa [hres] using takeRight_length_le limit text

theorem getLast?_of_suffix {l₁ l₂ : List Char} (h : l₁ <:+ l₂) (hne : l₁ ≠ []) :
    l₂.getLast? = l₁.getLast? := by
  obtain ⟨w, hw⟩ := h
  rw [← hw]
  exact List.getLast?_append_of_ne_nil w hne

/-- C1: for every text that ends in a resume-marker line and every limit
at least the marker line's length, `truncate_for_telegram` returns a
string of length at most the limit that contains the marker line in full
and unmodified as its final line; and any text that already fits is
returned unchanged. -/
theorem truncate_for_telegram_c1 (text marker : List Char) (limit : Nat)
    (hmark : (splitLastLine text).2 = marker)
    (hres : isResumeLine marker = true)
    (hlim : marker.length ≤ limit) :
    (truncate_for_telegram text limit).length ≤ limit ∧
    (∃ pre, truncate_for_telegram text limit = pre ++ marker ∧
      (pre = [] ∨ pre.getLast? = some '\n')) ∧
    (∀ t : List Char, t.length ≤ limit → truncate_for_telegram t limit = t) := by
  refine ⟨truncate_for_telegram_length text limit, ?_, ?_⟩
  · unfold truncate_for_telegram
    by_cases h : text.length ≤ limit
    · refine ⟨(splitLastLine text).1, ?_, splitLastLine_fst_last text⟩
      simp only [h, if_true]
      rw [← hmark]
      exact (splitLastLine_append text).symm
    · simp only [h, if_false, hmark, hres, if_true]
      by_cases hlim2 : limit ≤ marker.length
      · have heq : marker.length = limit := Nat.le_antisymm hlim hlim2
        refine ⟨[], ?_, Or.inl rfl⟩
        simp only [hlim2, if_true, List.nil_append]
        exact takeRight_full limit marker (le_of_eq heq)
      · simp only [hlim2, if_false]
        refine ⟨takeRight (limit - marker.length) (splitLastLine text).1, rfl, ?_⟩
        cases hpre : takeRight (limit - marker.length) (splitLastLine text).1 with
        | nil => exact Or.inl rfl
        | cons c cs =>
          right
          rw [← hpre]
          have hsuf : takeRight (limit - marker.length) (splitLastLine text).1 <:+
              (splitLastLine text).1 := takeRight_suffix _ _
          have hne : takeRight (limit - marker.length) (splitLastLine text).1 ≠ [] := by
            rw [hpre]; exact List.cons_ne_nil c cs
          have := getLast?_of_suffix hsuf hne
          rcases splitLastLine_fst_last text with hnil | hlast
          · exfalso
            rw [hnil] at hpre
            simp [takeRight] at hpre
          · rw [← this, hlast]
  · intro t ht
    unfold truncate_for_telegram
    simp [ht]

/-- Witness for C1 at a concrete truncating input. -/
theorem truncate_for_telegram_c1_witness :
    ((splitLastLine
        ("abcdef\nresume: `019b66fc-64c2-7a71-81cd-081c504cfeb2`".toList)).2 =
      "resume: `019b66fc-64c2-7a71-81cd-081c504cfeb2`".toList ∧
      isResumeLine ("resume: `019b66fc-64c2-7a71-81cd-081c504cfeb2`".toList) = true ∧
      ("resume: `019b66fc-64c2-7a71-81cd-081c504cfeb2`".toList).length ≤ 48) ∧
    ((truncate_for_telegram
        ("abcdef\nresume: `019b66fc-64c2-7a71-81cd-081c504cfeb2`".toList) 48).length ≤ 48 ∧
      (∃ pre, truncate_for_telegram
          ("abcdef\nresume: `019b66fc-64c2-7a71-81cd-081c504cfeb2`".toList) 48 =
          pre ++ "resume: `019b66fc-64c2-7a71-81cd-081c504cfeb2`".toList ∧
        (pre = [] ∨ pre.getLast? = some '\n')) ∧
      (∀ t : List Char, t.length ≤ 48 → truncate_for_telegram t 48 = t)) :=
  ⟨⟨by decide, by decide, by decide⟩,
    truncate_for_telegram_c1 _ _ 48 (by decide) (by decide) (by decide)⟩

theorem foldl_keep_last (f : List Char → Option (List Char)) (l : List (List Char)) :
    ∀ init : Option (List Char),
      l.foldl (fun acc line =>
        match f line with
        | some sid => some sid
        | none => acc) init = ((l.filterMap f).getLast?).or init := by
  induction l with
  | nil => intro init; simp
  | cons x xs ih =>
    intro init
    rw [List.foldl_cons, ih]
    cases hfx : f x with
    | none => simp [List.filterMap_cons, hfx]
    | some b =>
      simp only [List.filterMap_cons, hfx]
      rw [List.getLast?_cons]
      cases hlast : (xs.filterMap f).getLast? <;> simp [hlast, Option.or]

/-- C2: `extract_session_id` returns the identifier of the last line
matching the exact resume-marker shape (the last element of the
line-by-line parse), hence none when no line matches — even when a bare
UUID or a malformed marker line appears in the text, as the two concrete
inputs show; the last matching line wins when several appear. -/
theorem extract_session_id_c2 (text : List Char) :
    extract_session_id text = ((splitLines text).filterMap parseResumeLine).getLast? ∧
    extract_session_id ("here is a uuid 019b66fc-64c2-7a71-81cd-081c504cfeb2".toList) = none ∧
    extract_session_id ("resume: not-a-uuid".toList) = none ∧
    extract_session_id
      ("resume: `019b66fc-64c2-7a71-81cd-081c504cfeb2`\nresume: `123e4567-e89b-12d3-a456-426614174000`".toList) =
      some ("123e4567-e89b-12d3-a456-426614174000".toList) := by
  refine ⟨?_, by decide, by decide, by decide⟩
  unfold extract_session_id
  rw [foldl_keep_last]
  cases ((splitLines text).filterMap parseResumeLine).getLast? <;> simp [Option.or]

/-- A rich-text styling span over the rendered message text. -/
structure Entity where
  offset : Nat
  length : Nat
deriving DecidableEq

/-- An entity list is fully valid for a text when every span lies inside
the text's bounds. -/
def entitiesValid (es : List Entity) (text : List Char) : Bool :=
  es.all (fun e => e.offset + e.length ≤ text.length)

/-- Modelled from the spec: render the markdown through the external
converter; when the rendered text exceeds the limit, re-render as
truncated plain text and drop the entities entirely (`none`), never a
partial set.  Missing from src: `takopi.exec_bridge.prepare_telegram`;
the converter is the external collaborator `render`. -/
def prepare_telegram (render : List Char → List Char × List Entity)
    (markdown : List Char) (limit : Nat) : List Char × Option (List Entity) :=
  let rendered := (render markdown).1
  let ents := (render markdown).2
  if rendered.length ≤ limit then (rendered, some ents)
  else (truncate_for_telegram rendered limit, none)

/-- C7: for every markdown input and limit, `prepare_telegram` returns
text of length at most the limit, and its entity list is either fully
valid for the returned text or `none` — never partial or misaligned;
over-limit renders are truncated with entities dropped. -/
theorem prepare_telegram_c7 (render : List Char → List Char × List Entity)
    (markdown : List Char) (limit : Nat)
    (hvalid : entitiesValid (render markdown).2 (render markdown).1 = true) :
    (prepare_telegram render markdown limit).1.length ≤ limit ∧
    ((prepare_telegram render markdown limit).2 = none ∨
      ∃ es, (prepare_telegram render markdown limit).2 = some es ∧
        entitiesValid es (prepare_telegram render markdown limit).1 = true) ∧
    (limit < (render markdown).1.length →
      (prepare_telegram render markdown limit).2 = none) := by
  simp only [prepare_telegram]
  by_cases h : (render markdown).1.length ≤ limit
  · rw [if_pos h]
    exact ⟨h, Or.inr ⟨(render markdown).2, rfl, hvalid⟩, fun hc => absurd h (by omega)⟩
  · rw [if_neg h]
    exact ⟨truncate_for_telegram_length _ _, Or.inl rfl, fun _ => rfl⟩

/-- Witness for C7 with a concrete identity-style converter whose
entities are valid, at a limit forcing truncation. -/
theorem prepare_telegram_c7_witness :
    entitiesValid
      ((fun md : List Char => (md, [Entity.mk 0 2])) ("bold text here".toList)).2
      ((fun md : List Char => (md, [Entity.mk 0 2])) ("bold text here".toList)).1 = true ∧
    ((prepare_telegram (fun md : List Char => (md, [Entity.mk 0 2]))
        ("bold text here".toList) 5).1.length ≤ 5 ∧
      ((prepare_telegram (fun md : List Char => (md, [Entity.mk 0 2]))
          ("bold text here".toList) 5).2 = none ∨
        ∃ es, (prepare_telegram (fun md : List Char => (md, [Entity.mk 0 2]))
            ("bold text here".toList) 5).2 = some es ∧
          entitiesValid es (prepare_telegram (fun md : List Char => (md, [Entity.mk 0 2]))
            ("bold text here".toList) 5).1 = true) ∧
      (5 < ((fun md : List Char => (md, [Entity.mk 0 2])) ("bold text here".toList)).1.length →
        (prepare_telegram (fun md : List Char => (md, [Entity.mk 0 2]))
          ("bold text here".toList) 5).2 = none)) :=
  ⟨by decide, prepare_telegram_c7 _ _ 5 (by decide)⟩

/-- How the orchestrator delivers the final answer. -/
inductive FinalDelivery where
  | editInPlace (text : List Char) : FinalDelivery
  | newMessage (text : List Char) (notify : Bool) (deleteProgress : Bool) : FinalDelivery
deriving DecidableEq

/-- Modelled from the spec: when the final text exceeds the platform
edit size limit, a fresh message is sent — truncated, with notification
forced on regardless of the configured policy — and the transient
progress message is deleted; otherwise the configured policy decides
between a loud new message and a silent in-place edit.  Missing from
src: the final-delivery step of `takopi.exec_bridge.handle_message`. -/
def deliverFinal (finalNotify : Bool) (editLimit : Nat) (finalText : List Char) :
    FinalDelivery :=
  if editLimit < finalText.length then
    .newMessage (truncate_for_telegram finalText editLimit)
      (finalNotify || decide (editLimit < finalText.length)) true
  else if finalNotify then .newMessage finalText true true
  else .editInPlace finalText

/-- C4: whenever the final answer exceeds the edit size limit, the
delivery is a new message with notification forced on — for every
configured notification policy — together with deletion of the prior
progress message (and the new text still fits the limit). -/
theorem deliverFinal_c4 (finalNotify : Bool) (editLimit : Nat) (finalText : List Char)
    (h : editLimit < finalText.length) :
    ∃ t, deliverFinal finalNotify editLimit finalText = .newMessage t true true ∧
      t.length ≤ editLimit := by
  refine ⟨truncate_for_telegram finalText editLimit, ?_, truncate_for_telegram_length _ _⟩
  unfold deliverFinal
  simp [h]

/-- Witness for C4: a silent-policy configuration still notifies when
the final answer is too long to edit. -/
theorem deliverFinal_c4_witness :
    (4 < ("abcdef".toList).length) ∧
    ∃ t, deliverFinal false 4 ("abcdef".toList) = .newMessage t true true ∧
      t.length ≤ 4 :=
  ⟨by decide, deliverFinal_c4 false 4 _ (by decide)⟩

/-- Session identifiers are the parsed UUID character lists. -/
abbrev SessionId := List Char

/-- Terminal and non-terminal states of one run. -/
inductive RunStatus where
  | running | completed | cancelled | failed
deriving DecidableEq

/-- Modelled from the spec: the running-task registry maps session ids
to in-flight runs; an entry is inserted the instant the id becomes
known, at most one entry per id.  Missing from src: the registry
handling of `takopi.exec_bridge.handle_message`. -/
def registerTask (reg : List SessionId) (sid : SessionId) : List SessionId :=
  if sid ∈ reg then reg else sid :: reg

/-- Modelled from the spec: registry entries are removed unconditionally
when the run ends, whatever the outcome.  Missing from src: the cleanup
step of `takopi.exec_bridge.handle_message`. -/
def unregisterTask (reg : List SessionId) (sid : SessionId) : List SessionId :=
  reg.erase sid

/-- Modelled from the spec: terminal "cancelled" status line that still
carries the resume marker with the session id.  Missing from src: the
cancelled-state rendering of `takopi.exec_bridge.handle_message`. -/
def renderCancelled (sid : SessionId) : List Char :=
  ("cancelled".toList ++ ('\n' :: resumeMarkerStart)) ++ sid ++ ['`']

/-- Outcome of finishing one run: the registry after cleanup, the
terminal status, and the text the progress message is edited to. -/
structure RunEnd where
  registry : List SessionId
  status : RunStatus
  message : List Char

/-- Modelled from the spec: cancelling a registered run edits the
progress message to the terminal cancelled line and removes the
registry entry.  Missing from src: the cancellation path of
`takopi.exec_bridge.handle_message`. -/
def cancelRun (reg : List SessionId) (sid : SessionId) : RunEnd :=
  { registry := unregisterTask reg sid
    status := RunStatus.cancelled
    message := renderCancelled sid }

/-- Modelled from the spec: whatever the outcome, ending a run removes
its registry entry.  Missing from src: the finally-block of
`takopi.exec_bridge.handle_message`. -/
def endRegistry (reg : List SessionId) (sid : SessionId) (outcome : RunStatus) :
    List SessionId :=
  match outcome with
  | _ => unregisterTask reg sid

theorem registerTask_nodup {reg : List SessionId} {sid : SessionId} (h : reg.Nodup) :
    (registerTask reg sid).Nodup := by
  unfold registerTask
  by_cases hm : sid ∈ reg
  · simpa [hm] using h
  · rw [if_neg hm]
    exact List.Nodup.cons hm h

theorem not_mem_erase_of_nodup {reg : List SessionId} {sid : SessionId} (h : reg.Nodup) :
    sid ∉ reg.erase sid := by
  intro hmem
  exact ((List.Nodup.mem_erase_iff h).mp hmem).1 rfl

/-- C5: cancelling a task registered under session id `S` moves the run
to the cancelled terminal state, removes `S` from the registry, and the
terminal message contains both "cancelled" and `S`; and whatever the
outcome, ending the run removes the registry entry unconditionally. -/
theorem cancelRun_c5 (reg : List SessionId) (sid : SessionId) (hnd : reg.Nodup) :
    (cancelRun (registerTask reg sid) sid).status = RunStatus.cancelled ∧
    sid ∉ (cancelRun (registerTask reg sid) sid).registry ∧
    ("cancelled".toList <:+: (cancelRun (registerTask reg sid) sid).message) ∧
    (sid <:+: (cancelRun (registerTask reg sid) sid).message) ∧
    (∀ outcome : RunStatus, sid ∉ endRegistry (registerTask reg sid) sid outcome) := by
  refine ⟨rfl, ?_, ?_, ?_, ?_⟩
  · exact not_mem_erase_of_nodup (registerTask_nodup hnd)
  · refine ⟨[], ('\n' :: resumeMarkerStart) ++ sid ++ ['`'], ?_⟩
    simp [cancelRun, renderCancelled]
  · have h := List.infix_append ("cancelled".toList ++ ('\n' :: resumeMarkerStart)) sid ['`']
    simpa [cancelRun, renderCancelled] using h
  · intro outcome
    exact not_mem_erase_of_nodup (registerTask_nodup hnd)

/-- Witness for C5 at the test-suite's session id and an empty registry. -/
theorem cancelRun_c5_witness :
    ([] : List SessionId).Nodup ∧
    ((cancelRun (registerTask [] ("019b66fc-64c2-7a71-81cd-081c504cfeb2".toList))
        ("019b66fc-64c2-7a71-81cd-081c504cfeb2".toList)).status = RunStatus.cancelled ∧
      ("019b66fc-64c2-7a71-81cd-081c504cfeb2".toList) ∉
        (cancelRun (registerTask [] ("019b66fc-64c2-7a71-81cd-081c504cfeb2".toList))
          ("019b66fc-64c2-7a71-81cd-081c504cfeb2".toList)).registry ∧
      ("cancelled".toList <:+:
        (cancelRun (registerTask [] ("019b66fc-64c2-7a71-81cd-081c504cfeb2".toList))
          ("019b66fc-64c2-7a71-81cd-081c504cfeb2".toList)).message) ∧
      (("019b66fc-64c2-7a71-81cd-081c504cfeb2".toList) <:+:
        (cancelRun (registerTask [] ("019b66fc-64c2-7a71-81cd-081c504cfeb2".toList))
          ("019b66fc-64c2-7a71-81cd-081c504cfeb2".toList)).message) ∧
      (∀ outcome : RunStatus,
        ("019b66fc-64c2-7a71-81cd-081c504cfeb2".toList) ∉
          endRegistry (registerTask [] ("019b66fc-64c2-7a71-81cd-081c504cfeb2".toList))
            ("019b66fc-64c2-7a71-81cd-081c504cfeb2".toList) outcome)) :=
  ⟨List.nodup_nil, cancelRun_c5 [] _ List.nodup_nil⟩

/-- Outcome of one incoming cancel request. -/
inductive CancelOutcome where
  | promptReply : CancelOutcome
  | nothingRunning : CancelOutcome
  | cancelledTask (sid : SessionId) : CancelOutcome
deriving DecidableEq

/-- Reply sent when the cancel request is not itself a reply. -/
def cancelPromptText : List Char :=
  "reply to the progress message of the task you want to cancel".toList

/-- Reply sent when no task is currently running for the session. -/
def nothingRunningText : List Char :=
  "nothing is currently running for that session".toList

/-- Modelled from the spec: resolve the target session id from the
replied-to message; with no reply at all, prompt the user to reply to
the progress message; with a reply whose text yields no id, or an id
absent from the registry, answer that nothing is currently running;
with a registered id, cancel that task.  Missing from src:
`takopi.exec_bridge._handle_cancel`; the branch behaviour is pinned by
the repository's own tests
(`test_handle_cancel_with_no_session_id_says_nothing_running`). -/
def handle_cancel (repliedText : Option (List Char)) (reg : List SessionId) :
    CancelOutcome :=
  match repliedText with
  | none => .promptReply
  | some txt =>
    match extract_session_id txt with
    | none => .nothingRunning
    | some sid => if sid ∈ reg then .cancelledTask sid else .nothingRunning

/-- The chat replies each cancel outcome emits: prompting and
nothing-running each send exactly one reply; a successful cancellation
sends none. -/
def cancelReplies (o : CancelOutcome) : List (List Char) :=
  match o with
  | .promptReply => [cancelPromptText]
  | .nothingRunning => [nothingRunningText]
  | .cancelledTask _ => []

/-- C6 counterexample: a cancel request replying to a message with no
resolvable session id does not produce the "reply to the progress
message" prompt the claim demands — it produces the single
"nothing is currently running" reply instead (as the repository's own
test suite requires). -/
theorem handle_cancel_c6_counterexample :
    handle_cancel (some ("no uuid here".toList)) [] ≠ CancelOutcome.promptReply ∧
    handle_cancel (some ("no uuid here".toList)) [] = CancelOutcome.nothingRunning ∧
    cancelReplies (handle_cancel (some ("no uuid here".toList)) []) =
      [nothingRunningText] := by
  refine ⟨?_, by decide, by decide⟩
  decide

/-- C6 (amended): with no reply at all, exactly one prompt asking to
reply to the progress message is sent; with a reply that resolves no
session id, or an id not currently registered, exactly one
"nothing is currently running" reply is sent; with a registered id the
task is cancelled and no extra message is sent. -/
theorem handle_cancel_c6 (reg : List SessionId) (txt : List Char) (sid : SessionId) :
    (handle_cancel none reg = CancelOutcome.promptReply ∧
      cancelReplies (handle_cancel none reg) = [cancelPromptText]) ∧
    (extract_session_id txt = none →
      handle_cancel (some txt) reg = CancelOutcome.nothingRunning ∧
      cancelReplies (handle_cancel (some txt) reg) = [nothingRunningText]) ∧
    (extract_session_id txt = some sid → sid ∉ reg →
      handle_cancel (some txt) reg = CancelOutcome.nothingRunning ∧
      cancelReplies (handle_cancel (some txt) reg) = [nothingRunningText]) ∧
    (extract_session_id txt = some sid → sid ∈ reg →
      handle_cancel (some txt) reg = CancelOutcome.cancelledTask sid ∧
      cancelReplies (handle_cancel (some txt) reg) = []) := by
  refine ⟨⟨rfl, rfl⟩, ?_, ?_, ?_⟩
  · intro h
    simp [handle_cancel, h, cancelReplies]
  · intro h hmem
    simp [handle_cancel, h, hmem, cancelReplies]
  · intro h hmem
    simp [handle_cancel, h, hmem, cancelReplies]

/-- Witness for C6 (amended) at the test suite's inputs: a registered
session id extracted from a resume-marker reply is cancelled silently. -/
theorem handle_cancel_c6_witness :
    (extract_session_id ("resume: `019b66fc-64c2-7a71-81cd-081c504cfeb2`".toList) =
      some ("019b66fc-64c2-7a71-81cd-081c504cfeb2".toList) ∧
      ("019b66fc-64c2-7a71-81cd-081c504cfeb2".toList) ∈
        [("019b66fc-64c2-7a71-81cd-081c504cfeb2".toList)] ∧
      handle_cancel (some ("resume: `019b66fc-64c2-7a71-81cd-081c504cfeb2`".toList))
          [("019b66fc-64c2-7a71-81cd-081c504cfeb2".toList)] =
        CancelOutcome.cancelledTask ("019b66fc-64c2-7a71-81cd-081c504cfeb2".toList) ∧
      cancelReplies
        (handle_cancel (some ("resume: `019b66fc-64c2-7a71-81cd-081c504cfeb2`".toList))
          [("019b66fc-64c2-7a71-81cd-081c504cfeb2".toList)]) = []) ∧
    handle_cancel (none : Option (List Char))
        [("019b66fc-64c2-7a71-81cd-081c504cfeb2".toList)] = CancelOutcome.promptReply :=
  ⟨⟨by decide, by decide,
    ((handle_cancel_c6 [("019b66fc-64c2-7a71-81cd-081c504cfeb2".toList)]
        ("resume: `019b66fc-64c2-7a71-81cd-081c504cfeb2`".toList)
        ("019b66fc-64c2-7a71-81cd-081c504cfeb2".toList)).2.2.2 (by decide) (by decide))⟩,
    (handle_cancel_c6 [("019b66fc-64c2-7a71-81cd-081c504cfeb2".toList)]
        ("resume: `019b66fc-64c2-7a71-81cd-081c504cfeb2`".toList)
        ("019b66fc-64c2-7a71-81cd-081c504cfeb2".toList)).1.1⟩

/-- One HTTP response from the chat platform transport. -/
structure TgResponse where
  status : Nat
  okFlag : Bool
  retryAfter : Option Nat
deriving DecidableEq

/-- Result of one outbound chat-client call: the successful response if
any, how many requests were dispatched, and how many backoff sleeps were
taken. -/
structure TgCallResult where
  result : Option TgResponse
  attempts : Nat
  sleeps : Nat
deriving DecidableEq

/-- Modelled from the spec: each outbound call dispatches exactly one
request with a short timeout and returns a failure immediately on a
non-success response — no automatic retry and no backoff sleep, even
when the rate-limit response carries a retry-after hint.  Missing from
src: `takopi.telegram.TelegramClient._post`. -/
def tgPost (dispatch : Nat → TgResponse) : TgCallResult :=
  let resp := dispatch 0
  if resp.status = 200 ∧ resp.okFlag then
    { result := some resp, attempts := 1, sleeps := 0 }
  else
    { result := none, attempts := 1, sleeps := 0 }

/-- C8: a rate-limited (HTTP 429) response makes the chat client shim
return a failure after exactly one request attempt, with no retry and
no backoff sleep. -/
theorem tgPost_c8 (dispatch : Nat → TgResponse) (h : (dispatch 0).status = 429) :
    (tgPost dispatch).result = none ∧ (tgPost dispatch).attempts = 1 ∧
      (tgPost dispatch).sleeps = 0 := by
  have hne : ¬((dispatch 0).status = 200 ∧ (dispatch 0).okFlag) := by
    rintro ⟨h200, _⟩
    rw [h] at h200
    exact absurd h200 (by decide)
  simp [tgPost, hne]

/-- Witness for C8 at the test's 429 response carrying a retry-after
hint of 3 seconds. -/
theorem tgPost_c8_witness :
    ((fun _ : Nat => TgResponse.mk 429 false (some 3)) 0).status = 429 ∧
    ((tgPost (fun _ : Nat => TgResponse.mk 429 false (some 3))).result = none ∧
      (tgPost (fun _ : Nat => TgResponse.mk 429 false (some 3))).attempts = 1 ∧
      (tgPost (fun _ : Nat => TgResponse.mk 429 false (some 3))).sleeps = 0) :=
  ⟨rfl, tgPost_c8 _ rfl⟩

/-- Whitespace as Python `str.strip` sees it (the characters relevant
to transcription output). -/
def isStripChar (c : Char) : Bool :=
  c = ' ' ∨ c = '\n' ∨ c = '\t' ∨ c = '\r'

/-- Python `str.strip()`: drop whitespace from both ends. -/
def stripChars (s : List Char) : List Char :=
  ((s.dropWhile isStripChar).reverse.dropWhile isStripChar).reverse

/-- `" ".join(seg.strip() for seg in segments).strip()` from
`transcribe.py` line 57. -/
def joinSegments (segments : List (List Char)) : List Char :=
  stripChars (List.intercalate [' '] (segments.map stripChars))

/-- The fallible external steps `transcribe_audio` performs, in program
order: lazy model load (`_get_model`), temp-file creation
(`NamedTemporaryFile`), writing the audio bytes (`f.write`), and the
whisper transcription call (`model.transcribe`), which on success yields
the segment texts. -/
structure TranscribeEnv where
  loadModel : Except (List Char) Unit
  createTemp : Except (List Char) Nat
  writeAudio : Except (List Char) Unit
  transcribeFile : Except (List Char) (List (List Char))

/-- Observable outcome of `transcribe_audio`: the returned text (none on
any failure or empty transcription), whether the temp file was created,
and whether it was deleted again. -/
structure TranscribeOut where
  text : Option (List Char)
  tempCreated : Bool
  tempDeleted : Bool
deriving DecidableEq

/-- Embedding of `transcribe_audio` (src/src/takopi/transcribe.py lines
34-72): everything runs inside one `try/except Exception` returning
`None`; the temp file is created and written inside a `with` block, the
path is bound only after the write, and only the transcription call is
guarded by the `try/finally: temp_path.unlink(missing_ok=True)`; a
transcription whose joined stripped text is empty yields `None` rather
than the empty string. -/
def transcribe_audio (env : TranscribeEnv) : TranscribeOut :=
  match env.loadModel with
  | .error _ => { text := none, tempCreated := false, tempDeleted := false }
  | .ok _ =>
    match env.createTemp with
    | .error _ => { text := none, tempCreated := false, tempDeleted := false }
    | .ok _ =>
      match env.writeAudio with
      | .error _ => { text := none, tempCreated := true, tempDeleted := false }
      | .ok _ =>
        match env.transcribeFile with
        | .error _ => { text := none, tempCreated := true, tempDeleted := true }
        | .ok segments =>
          let text := joinSegments segments
          { text := if text.isEmpty then none else some text
            tempCreated := true
            tempDeleted := true }

/-- C10 counterexample: when the write of the audio bytes fails after
the temp file has been created, `transcribe_audio` returns none but the
temp file is never deleted — the `finally` that unlinks it only guards
the transcription call, so "once created, always deleted" is false. -/
theorem transcribe_audio_c10_counterexample :
    transcribe_audio
        (TranscribeEnv.mk (Except.ok ()) (Except.ok 0)
          (Except.error ("No space left on device".toList)) (Except.ok [])) =
      TranscribeOut.mk none true false ∧
    ¬((transcribe_audio
        (TranscribeEnv.mk (Except.ok ()) (Except.ok 0)
          (Except.error ("No space left on device".toList)) (Except.ok []))).tempCreated =
        true →
      (transcribe_audio
        (TranscribeEnv.mk (Except.ok ()) (Except.ok 0)
          (Except.error ("No space left on device".toList)) (Except.ok []))).tempDeleted =
        true) := by
  refine ⟨rfl, ?_⟩
  intro h
  have := h rfl
  simp [transcribe_audio] at this

/-- C10 (amended): `transcribe_audio` never propagates an error — every
failing step yields none; a transcription whose joined stripped text is
empty yields none rather than the empty string; and once the write of
the audio bytes has succeeded the temp file is always deleted, even when
the transcription itself fails.  (A failure of the write itself leaves
the created file undeleted, per the counterexample.) -/
theorem transcribe_audio_c10 (env : TranscribeEnv) :
    (∀ e, env.loadModel = .error e → transcribe_audio env = TranscribeOut.mk none false false) ∧
    (∀ e, env.createTemp = .error e → (transcribe_audio env).text = none) ∧
    (∀ e, env.writeAudio = .error e → (transcribe_audio env).text = none) ∧
    (∀ e, env.transcribeFile = .error e → (transcribe_audio env).text = none) ∧
    (∀ segments, env.transcribeFile = .ok segments → joinSegments segments = [] →
      (transcribe_audio env).text = none) ∧
    ((transcribe_audio env).text ≠ some []) ∧
    (env.writeAudio = .ok () → (transcribe_audio env).tempCreated = true →
      (transcribe_audio env).tempDeleted = true) := by
  obtain ⟨lm, ct, wa, tf⟩ := env
  cases lm <;> cases ct <;> cases wa <;> cases tf <;> simp [transcribe_audio]

/-- Witness for C10 (amended) at a concrete run whose transcription
succeeds but strips to whitespace only: the result is none and the temp
file is deleted. -/
theorem transcribe_audio_c10_witness :
    (TranscribeEnv.mk (Except.ok ()) (Except.ok 0) (Except.ok ())
        (Except.ok [[' ']])).writeAudio = Except.ok () ∧
    joinSegments [[' ']] = [] ∧
    (transcribe_audio (TranscribeEnv.mk (Except.ok ()) (Except.ok 0) (Except.ok ())
        (Except.ok [[' ']]))).text = none ∧
    (transcribe_audio (TranscribeEnv.mk (Except.ok ()) (Except.ok 0) (Except.ok ())
        (Except.ok [[' ']]))).tempDeleted = true := by
  refine ⟨rfl, by decide, ?_, ?_⟩
  · exact (transcribe_audio_c10
      (TranscribeEnv.mk (Except.ok ()) (Except.ok 0) (Except.ok ())
        (Except.ok [[' ']]))).2.2.2.2.1 [[' ']] rfl (by decide)
  · exact (transcribe_audio_c10
      (TranscribeEnv.mk (Except.ok ()) (Except.ok 0) (Except.ok ())
        (Except.ok [[' ']]))).2.2.2.2.2.2 rfl rfl

/-- Progress-loop state for one run: last flushed edit time, the armed
sleep (wake time paired with the most recently rendered line) if any,
the edits issued so far, and the number of rate-limit sleeps taken. -/
structure ProgState where
  lastFlush : Nat
  pend : Option (Nat × Nat)
  edits : List (Nat × Nat)
  sleeps : Nat

/-- Initial progress state: the silent "working" message counts as the
flush at time 0. -/
def initProg : ProgState := ⟨0, none, [], 0⟩

/-- Modelled from the spec: a pending rate-limit sleep whose wake time
has been reached fires before anything else, flushing the kept line as
one edit; the sleep is not re-armed.  Missing from src: the progress
edit loop of `takopi.exec_bridge.handle_message`. -/
def fireWake (st : ProgState) (now : Nat) : ProgState :=
  match st.pend with
  | some (w, p) =>
    if w ≤ now then ⟨w, none, st.edits ++ [(w, p)], st.sleeps⟩ else st
  | none => st

/-- Modelled from the spec: an arriving event first lets a due sleep
fire; then, if at least `T` has elapsed since the last flush, the event
is flushed immediately; otherwise the event's line replaces the kept
one, and a sleep until the due boundary is scheduled only when none is
armed.  Missing from src: the progress edit loop of
`takopi.exec_bridge.handle_message`. -/
def handleEvent (T : Nat) (st : ProgState) (e : Nat × Nat) : ProgState :=
  let st1 := fireWake st e.1
  if st1.lastFlush + T ≤ e.1 then
    ⟨e.1, none, st1.edits ++ [(e.1, e.2)], st1.sleeps⟩
  else
    match st1.pend with
    | none => ⟨st1.lastFlush, some (st1.lastFlush + T, e.2), st1.edits, st1.sleeps + 1⟩
    | some (w, _) => ⟨st1.lastFlush, some (w, e.2), st1.edits, st1.sleeps⟩

/-- After the runner finishes feeding events, an armed sleep still fires
once and flushes the kept line. -/
def finishProg (st : ProgState) : ProgState :=
  match st.pend with
  | some (w, p) => ⟨w, none, st.edits ++ [(w, p)], st.sleeps⟩
  | none => st

/-- The whole progress loop over a timed event stream. -/
def runProgress (T : Nat) (events : List (Nat × Nat)) : ProgState :=
  finishProg (events.foldl (handleEvent T) initProg)

/-- Spec-side description (following the specification's words, for the
refinement statement): the flushes are one per due boundary crossed — an
event at or past the boundary flushes at its own arrival time, while
events before the boundary merge into a single flush at the boundary
showing the most recent line. -/
def specFlushes (T lf : Nat) : List (Nat × Nat) → List (Nat × Nat)
  | [] => []
  | e :: rest =>
    if lf + T ≤ e.1 then e :: specFlushes T e.1 rest
    else
      (lf + T, ((rest.takeWhile (fun e2 => e2.1 < lf + T)).getLastD e).2) ::
        specFlushes T (lf + T) (rest.dropWhile (fun e2 => e2.1 < lf + T))
termination_by l => l.length
decreasing_by
  · simp only [List.length_cons]; omega
  · simp only [List.length_cons]
    exact Nat.lt_succ_of_le (List.dropWhile_sublist _).length_le

/-- Spec-side count of rate-limit sleeps: exactly one per deferred
boundary (armed by the first event that arrives while nothing is
pending), none for the merged follow-up events and none for immediate
flushes. -/
def deferredCount (T lf : Nat) : List Nat → Nat
  | [] => 0
  | t :: rest =>
    if lf + T ≤ t then deferredCount T t rest
    else 1 + deferredCount T (lf + T) (rest.dropWhile (fun u => u < lf + T))
termination_by l => l.length
decreasing_by
  · simp only [List.length_cons]; omega
  · simp only [List.length_cons]
    exact Nat.lt_succ_of_le (List.dropWhile_sublist _).length_le

theorem getLastD_snd_eq (l : List (Nat × Nat)) (d₁ d₂ : Nat × Nat) (h : d₁.2 = d₂.2) :
    (l.getLastD d₁).2 = (l.getLastD d₂).2 := by
  cases l with
  | nil => simpa using h
  | cons a l => rw [List.getLastD_cons, List.getLastD_cons]

theorem progress_go (T : Nat) :
    ∀ (rest : List (Nat × Nat)) (lf : Nat) (pend : Option (Nat × Nat))
      (edits0 : List (Nat × Nat)) (s0 : Nat),
      (∀ w p, pend = some (w, p) → w = lf + T) →
      (finishProg (rest.foldl (handleEvent T) ⟨lf, pend, edits0, s0⟩)).edits =
        (match pend with
         | none => edits0 ++ specFlushes T lf rest
         | some (w, p) =>
           edits0 ++ (w, ((rest.takeWhile (fun e => e.1 < w)).getLastD (w, p)).2) ::
             specFlushes T w (rest.dropWhile (fun e => e.1 < w))) ∧
      (finishProg (rest.foldl (handleEvent T) ⟨lf, pend, edits0, s0⟩)).sleeps =
        (match pend with
         | none => s0 + deferredCount T lf (rest.map Prod.fst)
         | some (w, _) =>
           s0 + deferredCount T w ((rest.map Prod.fst).dropWhile (fun t => t < w))) := by
  intro rest
  induction rest with
  | nil =>
    intro lf pend edits0 s0 hpend
    cases pend with
    | none => simp [finishProg, specFlushes, deferredCount]
    | some wp =>
      obtain ⟨w, p⟩ := wp
      simp [finishProg, specFlushes, deferredCount, List.getLastD]
  | cons e rest ih =>
    intro lf pend edits0 s0 hpend
    obtain ⟨τ, ℓ⟩ := e
    rw [List.foldl_cons]
    cases pend with
    | none =>
      by_cases hdue : lf + T ≤ τ
      · have hstep : handleEvent T ⟨lf, none, edits0, s0⟩ (τ, ℓ) =
            ⟨τ, none, edits0 ++ [(τ, ℓ)], s0⟩ := by
          simp [handleEvent, fireWake, hdue]
        rw [hstep]
        have h := ih τ none (edits0 ++ [(τ, ℓ)]) s0 (by simp)
        refine ⟨?_, ?_⟩
        · rw [h.1]
          simp only [specFlushes, hdue, if_true, List.append_assoc, List.cons_append,
            List.nil_append]
        · rw [h.2]
          simp only [List.map_cons, deferredCount, hdue, if_true]
      · have hstep : handleEvent T ⟨lf, none, edits0, s0⟩ (τ, ℓ) =
            ⟨lf, some (lf + T, ℓ), edits0, s0 + 1⟩ := by
          simp [handleEvent, fireWake, hdue]
        rw [hstep]
        have h := ih lf (some (lf + T, ℓ)) edits0 (s0 + 1)
          (by intro w p hwp; cases hwp; rfl)
        refine ⟨?_, ?_⟩
        · rw [h.1]
          simp only [specFlushes, hdue, if_false]
          rw [getLastD_snd_eq (rest.takeWhile fun e => e.1 < lf + T) (lf + T, ℓ) (τ, ℓ) rfl]
        · rw [h.2]
          simp only [List.map_cons, deferredCount, hdue, if_false]
          omega
    | some wp =>
      obtain ⟨w, p⟩ := wp
      have hw : w = lf + T := hpend w p rfl
      by_cases hfire : w ≤ τ
      · by_cases hdue : w + T ≤ τ
        · have hstep : handleEvent T ⟨lf, some (w, p), edits0, s0⟩ (τ, ℓ) =
              ⟨τ, none, (edits0 ++ [(w, p)]) ++ [(τ, ℓ)], s0⟩ := by
            simp [handleEvent, fireWake, hfire, hdue]
          rw [hstep]
          have h := ih τ none ((edits0 ++ [(w, p)]) ++ [(τ, ℓ)]) s0 (by simp)
          dsimp only at h ⊢
          have htake : ((τ, ℓ) :: rest).takeWhile (fun e => e.1 < w) = [] := by
            simp [List.takeWhile_cons, show ¬(τ < w) by omega]
          have hdrop : ((τ, ℓ) :: rest).dropWhile (fun e => e.1 < w) = (τ, ℓ) :: rest := by
            simp [List.dropWhile_cons, show ¬(τ < w) by omega]
          refine ⟨?_, ?_⟩
          · rw [h.1]
            simp only [htake, hdrop, List.getLastD_nil]
            simp only [specFlushes, hdue, if_true, List.append_assoc, List.cons_append,
              List.nil_append]
          · rw [h.2]
            have : ((((τ, ℓ) :: rest).map Prod.fst).dropWhile fun t => t < w) =
                τ :: rest.map Prod.fst := by
              simp [List.dropWhile_cons, show ¬(τ < w) by omega]
            rw [this]
            simp only [deferredCount, hdue, if_true]
        · have hstep : handleEvent T ⟨lf, some (w, p), edits0, s0⟩ (τ, ℓ) =
              ⟨w, some (w + T, ℓ), edits0 ++ [(w, p)], s0 + 1⟩ := by
            simp [handleEvent, fireWake, hfire, hdue]
          rw [hstep]
          have h := ih w (some (w + T, ℓ)) (edits0 ++ [(w, p)]) (s0 + 1)
            (by intro w' p' hwp; cases hwp; rfl)
          dsimp only at h ⊢
          have htake : ((τ, ℓ) :: rest).takeWhile (fun e => e.1 < w) = [] := by
            simp [List.takeWhile_cons, show ¬(τ < w) by omega]
          have hdrop : ((τ, ℓ) :: rest).dropWhile (fun e => e.1 < w) = (τ, ℓ) :: rest := by
            simp [List.dropWhile_cons, show ¬(τ < w) by omega]
          refine ⟨?_, ?_⟩
          · rw [h.1]
            simp only [htake, hdrop, List.getLastD_nil]
            simp only [specFlushes, hdue, if_false, List.append_assoc, List.cons_append,
              List.nil_append]
            rw [getLastD_snd_eq (rest.takeWhile fun e => e.1 < w + T) (w + T, ℓ) (τ, ℓ) rfl]
          · rw [h.2]
            have hmap : ((((τ, ℓ) :: rest).map Prod.fst).dropWhile fun t => t < w) =
                τ :: rest.map Prod.fst := by
              simp [List.dropWhile_cons, show ¬(τ < w) by omega]
            rw [hmap]
            simp only [deferredCount, hdue, if_false]
            omega
      · have hnotdue : ¬(lf + T ≤ τ) := by omega
        have hstep : handleEvent T ⟨lf, some (w, p), edits0, s0⟩ (τ, ℓ) =
            ⟨lf, some (w, ℓ), edits0, s0⟩ := by
          simp [handleEvent, fireWake, hfire, hnotdue]
        rw [hstep]
        have h := ih lf (some (w, ℓ)) edits0 s0 (by intro w' p' hwp; cases hwp; exact hw)
        dsimp only at h ⊢
        have htake : ((τ, ℓ) :: rest).takeWhile (fun e => e.1 < w) =
            (τ, ℓ) :: rest.takeWhile (fun e => e.1 < w) := by
          simp [List.takeWhile_cons, show τ < w by omega]
        have hdrop : ((τ, ℓ) :: rest).dropWhile (fun e => e.1 < w) =
            rest.dropWhile (fun e => e.1 < w) := by
          simp [List.dropWhile_cons, show τ < w by omega]
        refine ⟨?_, ?_⟩
        · rw [h.1]
          rw [htake, hdrop, List.getLastD_cons]
          rw [getLastD_snd_eq (rest.takeWhile fun e => e.1 < w) (w, ℓ) (τ, ℓ) rfl]
        · rw [h.2]
          have hmap : ((((τ, ℓ) :: rest).map Prod.fst).dropWhile fun t => t < w) =
              (rest.map Prod.fst).dropWhile fun t => t < w := by
            simp [List.dropWhile_cons, show τ < w by omega]
          rw [hmap]

theorem specFlushes_lb (T : Nat) :
    ∀ (n : Nat) (l : List (Nat × Nat)) (lf : Nat), l.length ≤ n →
      ∀ p ∈ specFlushes T lf l, lf + T ≤ p.1 := by
  intro n
  induction n with
  | zero =>
    intro l lf hlen p hp
    have hnil : l = [] := List.length_eq_zero.mp (Nat.le_zero.mp hlen)
    subst hnil
    simp [specFlushes] at hp
  | succ n ih =>
    intro l lf hlen p hp
    cases l with
    | nil => simp [specFlushes] at hp
    | cons e rest =>
      have hlen' : rest.length ≤ n := by
        simp only [List.length_cons] at hlen; omega
      by_cases hdue : lf + T ≤ e.1
      · rw [show specFlushes T lf (e :: rest) = e :: specFlushes T e.1 rest from by
          simp [specFlushes, hdue]] at hp
        rcases List.mem_cons.mp hp with heq | hmem
        · subst heq; exact hdue
        · have := ih rest e.1 hlen' p hmem
          omega
      · rw [show specFlushes T lf (e :: rest) =
            (lf + T, ((rest.takeWhile fun e2 => e2.1 < lf + T).getLastD e).2) ::
              specFlushes T (lf + T) (rest.dropWhile fun e2 => e2.1 < lf + T) from by
          simp [specFlushes, hdue]] at hp
        rcases List.mem_cons.mp hp with heq | hmem
        · subst heq; simp
        · have hlen2 : (rest.dropWhile fun e2 => e2.1 < lf + T).length ≤ n := by
            have hsub : (rest.dropWhile fun e2 => e2.1 < lf + T).length ≤ rest.length :=
              (List.dropWhile_sublist _).length_le
            omega
          have := ih _ (lf + T) hlen2 p hmem
          omega

theorem specFlushes_chain (T : Nat) :
    ∀ (n : Nat) (l : List (Nat × Nat)) (lf : Nat), l.length ≤ n →
      List.Chain' (fun a b : Nat × Nat => a.1 + T ≤ b.1) (specFlushes T lf l) := by
  intro n
  induction n with
  | zero =>
    intro l lf hlen
    have hnil : l = [] := List.length_eq_zero.mp (Nat.le_zero.mp hlen)
    subst hnil
    simp [specFlushes]
  | succ n ih =>
    intro l lf hlen
    cases l with
    | nil => simp [specFlushes]
    | cons e rest =>
      have hlen' : rest.length ≤ n := by
        simp only [List.length_cons] at hlen; omega
      by_cases hdue : lf + T ≤ e.1
      · rw [show specFlushes T lf (e :: rest) = e :: specFlushes T e.1 rest from by
          simp [specFlushes, hdue]]
        rw [List.chain'_cons']
        refine ⟨?_, ih rest e.1 hlen'⟩
        intro y hy
        exact specFlushes_lb T n rest e.1 hlen' y (List.mem_of_mem_head? hy)
      · rw [show specFlushes T lf (e :: rest) =
            (lf + T, ((rest.takeWhile fun e2 => e2.1 < lf + T).getLastD e).2) ::
              specFlushes T (lf + T) (rest.dropWhile fun e2 => e2.1 < lf + T) from by
          simp [specFlushes, hdue]]
        rw [List.chain'_cons']
        have hlen2 : (rest.dropWhile fun e2 => e2.1 < lf + T).length ≤ n := by
          have hsub : (rest.dropWhile fun e2 => e2.1 < lf + T).length ≤ rest.length :=
            (List.dropWhile_sublist _).length_le
          omega
        refine ⟨?_, ih _ (lf + T) hlen2⟩
        intro y hy
        exact specFlushes_lb T n _ (lf + T) hlen2 y (List.mem_of_mem_head? hy)

/-- C3: over a timed event stream with minimum edit interval `T`, the
progress loop issues exactly the edits of the spec-side boundary
description — one edit per due boundary crossed, each showing the most
recently rendered line at that boundary (`specFlushes`); its sleep count
is exactly one per deferred boundary, so no sleep is re-armed after a
flush until a new event arrives (`deferredCount`); and consecutive edits
are at least `T` apart. -/
theorem runProgress_c3 (T : Nat) (events : List (Nat × Nat)) (hT : 0 < T)
    (hsorted : List.Pairwise (fun a b : Nat × Nat => a.1 < b.1) events) :
    (runProgress T events).edits = specFlushes T 0 events ∧
    (runProgress T events).sleeps = deferredCount T 0 (events.map Prod.fst) ∧
    List.Chain' (fun a b : Nat × Nat => a.1 + T ≤ b.1) (runProgress T events).edits := by
  have h := progress_go T events 0 none [] 0 (by intro w p hwp; cases hwp)
  dsimp only at h
  have he : (runProgress T events).edits = specFlushes T 0 events := by
    unfold runProgress
    simpa [initProg] using h.1
  refine ⟨he, ?_, ?_⟩
  · unfold runProgress
    simpa [initProg] using h.2
  · rw [he]
    exact specFlushes_chain T events.length events 0 le_rfl

/-- Witness for C3 at the rate-limit test's shape: two events inside one
interval produce exactly one edit, at the boundary, showing the latest
line, with exactly one sleep. -/
theorem runProgress_c3_witness :
    (0 < 10 ∧
      List.Pairwise (fun a b : Nat × Nat => a.1 < b.1) [(2, 1), (4, 2)] ∧
      (runProgress 10 [(2, 1), (4, 2)]).edits = [(10, 2)] ∧
      (runProgress 10 [(2, 1), (4, 2)]).sleeps = 1) ∧
    ((runProgress 10 [(2, 1), (4, 2)]).edits = specFlushes 10 0 [(2, 1), (4, 2)] ∧
      (runProgress 10 [(2, 1), (4, 2)]).sleeps =
        deferredCount 10 0 ([(2, 1), (4, 2)].map Prod.fst) ∧
      List.Chain' (fun a b : Nat × Nat => a.1 + 10 ≤ b.1)
        (runProgress 10 [(2, 1), (4, 2)]).edits) :=
  ⟨⟨by decide, by decide, by decide, by decide⟩,
    runProgress_c3 10 [(2, 1), (4, 2)] (by decide) (by decide)⟩

/-- The fixed placeholder any credential is redacted to before a log
emission. -/
def redactedTag : List Char := "[REDACTED]".toList

/-- Modelled from the spec: greedy left-to-right replacement of every
occurrence of the credential `t` by the replacement `r`, as a redaction
filter applies it to a log line before emission.  Missing from src:
`takopi.logging.RedactTokenFilter`. -/
def replaceAll (t r : List Char) : List Char → List Char
  | [] => []
  | c :: cs =>
    if h : t ≠ [] ∧ t.isPrefixOf (c :: cs) then
      r ++ replaceAll t r ((c :: cs).drop t.length)
    else c :: replaceAll t r cs
termination_by l => l.length
decreasing_by
  · simp only [List.length_drop, List.length_cons]
    have hlen : 0 < t.length := List.length_pos.mpr h.1
    omega
  · simp only [List.length_cons]
    omega

/-- Modelled from the spec: the log text actually emitted is the raw
text with the bot token redacted to the fixed placeholder.  Missing from
src: `takopi.logging.RedactTokenFilter` applied by the telegram client's
error logging. -/
def redactTokenFilter (token msg : List Char) : List Char :=
  replaceAll token redactedTag msg

theorem suffix_append_split {v a b : List Char} (h : v <:+ a ++ b) :
    (∃ a', a' <:+ a ∧ v = a' ++ b) ∨ v <:+ b := by
  obtain ⟨w, hw⟩ := h
  by_cases hlen : b.length ≤ v.length
  · left
    have hv : v.take (v.length - b.length) ++ v.drop (v.length - b.length) = v :=
      List.take_append_drop _ _
    have hlen2 : (v.drop (v.length - b.length)).length = b.length := by
      simp only [List.length_drop]; omega
    have hw2 : (w ++ v.take (v.length - b.length)) ++ v.drop (v.length - b.length) = a ++ b := by
      rw [List.append_assoc, hv, hw]
    obtain ⟨hwa, hvb⟩ := List.append_inj' hw2 hlen2
    refine ⟨v.take (v.length - b.length), ⟨w, hwa⟩, ?_⟩
    conv_lhs => rw [← hv]
    rw [hvb]
  · right
    have hbs : b <:+ a ++ b := List.suffix_append a b
    rw [← List.reverse_prefix] at *
    obtain ⟨wb, hwb⟩ := hbs
    have hvpre : v.reverse <+: (a ++ b).reverse := ⟨w.reverse, by rw [← List.reverse_append, hw]⟩
    exact List.prefix_of_prefix_length_le hvpre ⟨wb, hwb⟩ (by simp; omega)

theorem replaceAll_prefix_reflect (t : List Char) :
    ∀ (n : Nat) (s u : List Char), s.length ≤ n → u ≠ [] → '[' ∉ u →
      u <+: replaceAll t redactedTag s → u <+: s := by
  intro n
  induction n with
  | zero =>
    intro s u hlen hne _ hpre
    have hnil : s = [] := List.length_eq_zero.mp (Nat.le_zero.mp hlen)
    subst hnil
    rw [show replaceAll t redactedTag [] = [] from by simp [replaceAll]] at hpre
    exact absurd (List.prefix_nil.mp hpre) hne
  | succ n ih =>
    intro s u hlen hne hlb hpre
    cases s with
    | nil =>
      rw [show replaceAll t redactedTag [] = [] from by simp [replaceAll]] at hpre
      exact absurd (List.prefix_nil.mp hpre) hne
    | cons c cs =>
      by_cases hg : t ≠ [] ∧ t.isPrefixOf (c :: cs)
      · rw [show replaceAll t redactedTag (c :: cs) =
            redactedTag ++ replaceAll t redactedTag ((c :: cs).drop t.length) from by
          rw [replaceAll]; rw [dif_pos hg]] at hpre
        cases u with
        | nil => exact absurd rfl hne
        | cons u0 u' =>
          exfalso
          have hstep : redactedTag ++ replaceAll t redactedTag ((c :: cs).drop t.length) =
              '[' :: ("REDACTED]".toList ++
                replaceAll t redactedTag ((c :: cs).drop t.length)) := rfl
          rw [hstep] at hpre
          have := (List.cons_prefix_cons.mp hpre).1
          subst this
          exact hlb (List.mem_cons_self '[' u')
      · rw [show replaceAll t redactedTag (c :: cs) =
            c :: replaceAll t redactedTag cs from by
          rw [replaceAll]; rw [dif_neg hg]] at hpre
        cases u with
        | nil => exact absurd rfl hne
        | cons u0 u' =>
          obtain ⟨hu0, hu'⟩ := List.cons_prefix_cons.mp hpre
          subst hu0
          by_cases hu'e : u' = []
          · subst hu'e
            exact ⟨cs, rfl⟩
          · have hlen' : cs.length ≤ n := by
              simp only [List.length_cons] at hlen; omega
            have hu'p : u' <+: cs := by
              apply ih cs u' hlen' hu'e
              · intro hmem; exact hlb (List.mem_cons_of_mem _ hmem)
              · exact hu'
            exact List.cons_prefix_cons.mpr ⟨rfl, hu'p⟩

theorem prefix_isInfix {l₁ l₂ : List Char} (h : l₁ <+: l₂) : l₁ <:+: l₂ := by
  obtain ⟨w, hw⟩ := h
  exact ⟨[], w, by simpa using hw⟩

theorem replaceAll_no_token (t : List Char) (ht : t ≠ []) (hlb : '[' ∉ t) (hrb : ']' ∉ t)
    (htag : ¬ t <:+: redactedTag) :
    ∀ (n : Nat) (s : List Char), s.length ≤ n → ¬ t <:+: replaceAll t redactedTag s := by
  intro n
  induction n with
  | zero =>
    intro s hlen hinf
    have hnil : s = [] := List.length_eq_zero.mp (Nat.le_zero.mp hlen)
    subst hnil
    rw [show replaceAll t redactedTag [] = [] from by simp [replaceAll]] at hinf
    exact ht (List.infix_nil.mp hinf)
  | succ n ih =>
    intro s hlen hinf
    cases s with
    | nil =>
      rw [show replaceAll t redactedTag [] = [] from by simp [replaceAll]] at hinf
      exact ht (List.infix_nil.mp hinf)
    | cons c cs =>
      by_cases hg : t ≠ [] ∧ t.isPrefixOf (c :: cs)
      · rw [show replaceAll t redactedTag (c :: cs) =
            redactedTag ++ replaceAll t redactedTag ((c :: cs).drop t.length) from by
          rw [replaceAll]; rw [dif_pos hg]] at hinf
        have hrestlen : ((c :: cs).drop t.length).length ≤ n := by
          simp only [List.length_drop, List.length_cons] at *
          have hpos : 0 < t.length := List.length_pos.mpr ht
          omega
        have hrest := ih ((c :: cs).drop t.length) hrestlen
        obtain ⟨v, hvp, hvs⟩ := List.infix_iff_prefix_suffix.mp hinf
        rcases suffix_append_split hvs with ⟨a', ha's, hv⟩ | hvb
        · subst hv
          by_cases hlen2 : t.length ≤ a'.length
          · have hta : t <+: a' :=
              List.prefix_of_prefix_length_le hvp (List.prefix_append a' _) hlen2
            exact htag (List.infix_iff_prefix_suffix.mpr ⟨a', hta, ha's⟩)
          · have ha't : a' <+: t :=
              List.prefix_of_prefix_length_le (List.prefix_append a' _) hvp (by omega)
            by_cases ha'e : a' = []
            · subst ha'e
              exact hrest (prefix_isInfix (by simpa using hvp))
            · have hlast : a'.getLast? = some ']' := by
                rw [← getLast?_of_suffix ha's ha'e]
                rfl
              exact hrb (ha't.subset (List.mem_of_getLast?_eq_some hlast))
        · exact hrest (List.infix_iff_prefix_suffix.mpr ⟨v, hvp, hvb⟩)
      · rw [show replaceAll t redactedTag (c :: cs) =
            c :: replaceAll t redactedTag cs from by
          rw [replaceAll]; rw [dif_neg hg]] at hinf
        obtain ⟨v, hvp, hvs⟩ := List.infix_iff_prefix_suffix.mp hinf
        rcases List.suffix_cons_iff.mp hvs with hfull | htail
        · subst hfull
          have hpre : t <+: replaceAll t redactedTag (c :: cs) := by
            rw [show replaceAll t redactedTag (c :: cs) =
              c :: replaceAll t redactedTag cs from by
              rw [replaceAll]; rw [dif_neg hg]]
            exact hvp
          have hts : t <+: c :: cs :=
            replaceAll_prefix_reflect t (n + 1) (c :: cs) t hlen ht hlb hpre
          exact hg ⟨ht, List.isPrefixOf_iff_prefix.mpr hts⟩
        · have hlen' : cs.length ≤ n := by
            simp only [List.length_cons] at hlen; omega
          exact ih cs hlen' (List.infix_iff_prefix_suffix.mpr ⟨v, hvp, htail⟩)

theorem replaceAll_hits (t : List Char) (ht : t ≠ []) :
    ∀ (n : Nat) (s : List Char), s.length ≤ n → t <:+: s →
      redactedTag <:+: replaceAll t redactedTag s := by
  intro n
  induction n with
  | zero =>
    intro s hlen hinf
    have hnil : s = [] := List.length_eq_zero.mp (Nat.le_zero.mp hlen)
    subst hnil
    exact absurd (List.infix_nil.mp hinf) ht
  | succ n ih =>
    intro s hlen hinf
    cases s with
    | nil => exact absurd (List.infix_nil.mp hinf) ht
    | cons c cs =>
      by_cases hg : t ≠ [] ∧ t.isPrefixOf (c :: cs)
      · rw [show replaceAll t redactedTag (c :: cs) =
            redactedTag ++ replaceAll t redactedTag ((c :: cs).drop t.length) from by
          rw [replaceAll]; rw [dif_pos hg]]
        exact prefix_isInfix (List.prefix_append _ _)
      · rw [show replaceAll t redactedTag (c :: cs) =
            c :: replaceAll t redactedTag cs from by
          rw [replaceAll]; rw [dif_neg hg]]
        obtain ⟨v, hvp, hvs⟩ := List.infix_iff_prefix_suffix.mp hinf
        rcases List.suffix_cons_iff.mp hvs with hfull | htail
        · subst hfull
          exact absurd ⟨ht, List.isPrefixOf_iff_prefix.mpr hvp⟩ hg
        · have hlen' : cs.length ≤ n := by
            simp only [List.length_cons] at hlen; omega
          have := ih cs hlen' (List.infix_iff_prefix_suffix.mpr ⟨v, hvp, htail⟩)
          exact List.infix_cons this

/-- C9: for every log text, the bot token (a Telegram-shaped credential:
nonempty, containing a colon, containing no square bracket) never
appears in the emitted log text — the redaction filter replaces every
occurrence by the fixed placeholder before emission, and when the raw
text did contain the token the placeholder appears in its place. -/
theorem redact_c9 (token msg : List Char) (h1 : token ≠ []) (h2 : '[' ∉ token)
    (h3 : ']' ∉ token) (h4 : ':' ∈ token) :
    ¬ token <:+: redactTokenFilter token msg ∧
    (token <:+: msg → redactedTag <:+: redactTokenFilter token msg) := by
  have htag : ¬ token <:+: redactedTag := by
    intro hc
    have hmem : ':' ∈ redactedTag := hc.subset h4
    exact absurd hmem (by decide)
  constructor
  · exact replaceAll_no_token token h1 h2 h3 htag msg.length msg le_rfl
  · intro hocc
    exact replaceAll_hits token h1 msg.length msg le_rfl hocc

/-- Witness for C9 at the test's token and a log line for an HTTP 500
error whose request path embeds the token. -/
theorem redact_c9_witness :
    (("123:abcDEF_ghij".toList ≠ []) ∧
      '[' ∉ "123:abcDEF_ghij".toList ∧
      ']' ∉ "123:abcDEF_ghij".toList ∧
      ':' ∈ "123:abcDEF_ghij".toList ∧
      ("123:abcDEF_ghij".toList <:+:
        "POST bot123:abcDEF_ghij getUpdates failed with HTTP 500".toList)) ∧
    (¬ "123:abcDEF_ghij".toList <:+:
        redactTokenFilter ("123:abcDEF_ghij".toList)
          ("POST bot123:abcDEF_ghij getUpdates failed with HTTP 500".toList) ∧
      ("123:abcDEF_ghij".toList <:+:
          "POST bot123:abcDEF_ghij getUpdates failed with HTTP 500".toList →
        redactedTag <:+:
          redactTokenFilter ("123:abcDEF_ghij".toList)
            ("POST bot123:abcDEF_ghij getUpdates failed with HTTP 500".toList))) :=
  ⟨⟨by decide, by decide, by decide, by decide, by decide⟩,
    redact_c9 ("123:abcDEF_ghij".toList)
      ("POST bot123:abcDEF_ghij getUpdates failed with HTTP 500".toList)
      (by decide) (by decide) (by decide) (by decide)⟩
